import Mathlib

/-!
Verification development for the `kv-rs` repository.

This file gives a shallow embedding of the log-structured storage engine
(`src/engines/kv.rs`), its record codec (serde_json lines), the positioned
buffered writer, the LSM `InternalKey` comparison and `find_file` binary
search (`src/engines/kv/mod.rs`, `src/engines/kv/version.rs`), and the
shared-queue thread pool worker loop (`src/thread_pool/shared_queue.rs`),
together with theorems settling the specification's claims about them.

Files are modelled as lists of characters; machine integers that only ever
hold small sizes and offsets are modelled as `Nat`.
-/

namespace KvRs

/-! ## Record codec

`Record { cmd, key, value }` is serialized by `serde_json::to_string` as one
line `{"cmd":"Set","key":"…","value":"…"}` (fields in declaration order,
string contents escaped), and the engine appends a trailing `'\n'`.
The decoder below models `serde_json::from_str` on such canonical lines:
it parses exactly the canonical field layout, with the escape sequences
serde_json emits and accepts inside strings, and allows trailing
whitespace (which covers the trailing newline kept by `read_line`).
-/

/-- The on-disk command tag of the log-structured engine
(`enum Command { Set, Remove }` in `src/engines/kv.rs`). -/
inductive Command where
  | Set
  | Remove
deriving DecidableEq, Repr

/-- One log record (`struct Record { cmd, key, value }` in `src/engines/kv.rs`). -/
structure Record where
  cmd : Command
  key : String
  value : String
deriving DecidableEq, Repr

/-- Lower-case hex digit, as in serde_json's digit table. -/
def hexDigit (n : Nat) : Char :=
  if n < 10 then Char.ofNat (48 + n) else Char.ofNat (87 + n)

/-- serde_json's escaping of one character inside a JSON string:
`"` and `\` and the named control characters get two-character escapes,
all other control characters get `\u00XX`, everything else is emitted as is. -/
def escChar (c : Char) : List Char :=
  if c = '"' then ['\\', '"']
  else if c = '\\' then ['\\', '\\']
  else if c = Char.ofNat 8 then ['\\', 'b']
  else if c = Char.ofNat 9 then ['\\', 't']
  else if c = Char.ofNat 10 then ['\\', 'n']
  else if c = Char.ofNat 12 then ['\\', 'f']
  else if c = Char.ofNat 13 then ['\\', 'r']
  else if c.toNat < 32 then ['\\', 'u', '0', '0', hexDigit (c.toNat / 16), hexDigit (c.toNat % 16)]
  else [c]

/-- Escape a whole string (list of characters). -/
def escapeStr (s : List Char) : List Char := (s.map escChar).flatten

/-- Value of one hex digit (serde_json accepts both cases). -/
def hexVal (c : Char) : Option Nat :=
  if 48 ≤ c.toNat ∧ c.toNat ≤ 57 then some (c.toNat - 48)
  else if 97 ≤ c.toNat ∧ c.toNat ≤ 102 then some (c.toNat - 87)
  else if 65 ≤ c.toNat ∧ c.toNat ≤ 70 then some (c.toNat - 55)
  else none

/-- Parse the body of a JSON string up to and including its closing quote,
undoing serde_json's escapes; returns the decoded characters and the rest of
the input.  Raw control characters and malformed escapes are rejected, as
serde_json rejects them. -/
def parseStringBody : List Char → Option (List Char × List Char)
  | [] => none
  | c :: rest =>
    if c = '"' then some ([], rest)
    else if c = '\\' then
      match rest with
      | [] => none
      | e :: rest2 =>
        if e = '"' then (parseStringBody rest2).map (fun p => ('"' :: p.1, p.2))
        else if e = '\\' then (parseStringBody rest2).map (fun p => ('\\' :: p.1, p.2))
        else if e = '/' then (parseStringBody rest2).map (fun p => ('/' :: p.1, p.2))
        else if e = 'b' then (parseStringBody rest2).map (fun p => (Char.ofNat 8 :: p.1, p.2))
        else if e = 't' then (parseStringBody rest2).map (fun p => (Char.ofNat 9 :: p.1, p.2))
        else if e = 'n' then (parseStringBody rest2).map (fun p => (Char.ofNat 10 :: p.1, p.2))
        else if e = 'f' then (parseStringBody rest2).map (fun p => (Char.ofNat 12 :: p.1, p.2))
        else if e = 'r' then (parseStringBody rest2).map (fun p => (Char.ofNat 13 :: p.1, p.2))
        else if e = 'u' then
          match rest2 with
          | h1 :: h2 :: h3 :: h4 :: rest3 =>
            match hexVal h1, hexVal h2, hexVal h3, hexVal h4 with
            | some a, some b, some c3, some d =>
              let n := ((a * 16 + b) * 16 + c3) * 16 + d
              if 55296 ≤ n ∧ n < 57344 then none
              else (parseStringBody rest3).map (fun p => (Char.ofNat n :: p.1, p.2))
            | _, _, _, _ => none
          | _ => none
        else none
    else if c.toNat < 32 then none
    else (parseStringBody rest).map (fun p => (c :: p.1, p.2))

/-- Literal opening `{"cmd":"` of a serialized record. -/
def litCmd : List Char := ['{', '"', 'c', 'm', 'd', '"', ':', '"']

/-- Literal `,"key":"` between the command and the key (the key's opening
quote included; the command's closing quote is consumed by the string parser). -/
def litKey : List Char := [',', '"', 'k', 'e', 'y', '"', ':', '"']

/-- Literal `,"value":"` between the key and the value. -/
def litValue : List Char := [',', '"', 'v', 'a', 'l', 'u', 'e', '"', ':', '"']

/-- The serialized variant name of a command. -/
def encodeCmd : Command → List Char
  | Command.Set => ['S', 'e', 't']
  | Command.Remove => ['R', 'e', 'm', 'o', 'v', 'e']

/-- `serde_json::to_string(&record) + "\n"`: the full line the engine appends
to the log for one record. -/
def encodeRecordLine (r : Record) : List Char :=
  litCmd ++ escapeStr (encodeCmd r.cmd) ++ ['"'] ++
    litKey ++ escapeStr r.key.data ++ ['"'] ++
    litValue ++ escapeStr r.value.data ++ ['"'] ++ ['}'] ++ ['\n']

/-- Match a literal prefix, returning the rest of the input. -/
def parseLit (lit s : List Char) : Option (List Char) :=
  if lit.isPrefixOf s then some (s.drop lit.length) else none

/-- Characters serde_json skips as trailing whitespace. -/
def isJsonWs (c : Char) : Bool :=
  c = ' ' || c = Char.ofNat 9 || c = Char.ofNat 10 || c = Char.ofNat 13

/-- `serde_json::from_str::<Record>` on one log line (canonical field order,
as produced by `serde_json::to_string`); trailing whitespace — in particular
the `'\n'` kept by `read_line` — is accepted. -/
def decodeRecord (s : List Char) : Option Record := do
  let s1 ← parseLit litCmd s
  let (cmdChars, s2) ← parseStringBody s1
  let cmd ←
    if cmdChars = ['S', 'e', 't'] then some Command.Set
    else if cmdChars = ['R', 'e', 'm', 'o', 'v', 'e'] then some Command.Remove
    else none
  let s3 ← parseLit litKey s2
  let (keyChars, s4) ← parseStringBody s3
  let s5 ← parseLit litValue s4
  let (valueChars, s6) ← parseStringBody s5
  let s7 ← parseLit ['}'] s6
  if s7.all isJsonWs then
    some { cmd := cmd, key := String.mk keyChars, value := String.mk valueChars }
  else none

/-! ## Line-oriented reads

A positioned read in the engine is `seek(SeekFrom::Start(pos))` followed by
`read_line`, which consumes bytes up to and including the first `'\n'`
(or to end of file when no newline follows). -/

/-- Bytes up to and including the first newline (all bytes when none). -/
def readLine : List Char → List Char
  | [] => []
  | c :: rest => if c = '\n' then [c] else c :: readLine rest

/-- Positioned read of one line: `seek(pos)` then `read_line`. -/
def readLineFrom (file : List Char) (pos : Nat) : List Char :=
  readLine (file.drop pos)

/-! ## The in-memory index

The source keeps a `DashMap<String, u64>` from key to the start offset of the
latest `Set` record; it is modelled as an association list whose operations
mirror `get` / `contains_key` / `remove` / `insert`. -/

/-- Lookup in the index. -/
def mapGet : List (String × Nat) → String → Option Nat
  | [], _ => none
  | (k', v) :: rest, k => if k' = k then some v else mapGet rest k

/-- Key-membership test of the index. -/
def containsKey (m : List (String × Nat)) (k : String) : Bool :=
  (mapGet m k).isSome

/-- Remove a key from the index. -/
def mapRemove : List (String × Nat) → String → List (String × Nat)
  | [], _ => []
  | e :: rest, k => if e.1 = k then mapRemove rest k else e :: mapRemove rest k

/-- Insert, replacing any existing mapping for the key. -/
def mapInsert (m : List (String × Nat)) (k : String) (v : Nat) : List (String × Nat) :=
  (k, v) :: mapRemove m k

/-! ## The log-structured engine -/

/-- Errors surfaced by the engine: I/O failures, the short-write / bad-frame
corruption error, and remove-of-absent-key. -/
inductive KVError where
  | io
  | corrupt
  | notFound
deriving DecidableEq, Repr

/-- Outcome of the buffered `write` + `flush` pair inside one engine call,
used to inject I/O failures: `ok` — full write, flush succeeds; `short n` —
`write` returns `Ok(n)` and only `n` bytes reach the log; `writeErr` —
`write` returns `Err`; `flushErr` — `write` succeeds in full but `flush`
returns `Err`. -/
inductive WOutcome where
  | ok
  | short (n : Nat)
  | writeErr
  | flushErr
deriving DecidableEq, Repr

/-- State of `KvStore` (src/engines/kv.rs): the contents of `dir/log` and the
in-memory key → start-offset index.  Clones of a handle share both through
`Arc`s, so one state models a handle together with all of its clones. -/
structure KvStore where
  file : List Char
  kv : List (String × Nat)
deriving DecidableEq, Repr

/-- The freshly created store: empty log, empty index. -/
def freshStore : KvStore := { file := [], kv := [] }

/-- Model of `KvsEngine::set` for `KvStore` (src/engines/kv.rs lines 40-63):
serialize the record plus `"\n"`, append it to the log, compute the record's
start offset `pos = guard.pos - n` (the writer's post-write position is the
end of the appended file, so on a full write this is the pre-write file
length), flush, fail with the corruption error when the write was short, and
only then replace the index mapping.  Returns the post-call state and the
call's result. -/
def KvStore.set (s : KvStore) (key value : String) (io : WOutcome) :
    KvStore × Except KVError Unit :=
  let record := encodeRecordLine { cmd := Command.Set, key := key, value := value }
  match io with
  | WOutcome.writeErr => (s, Except.error KVError.io)
  | WOutcome.flushErr => ({ s with file := s.file ++ record }, Except.error KVError.io)
  | WOutcome.short n =>
    if n < record.length then
      ({ s with file := s.file ++ record.take n }, Except.error KVError.corrupt)
    else
      ({ file := s.file ++ record, kv := mapInsert s.kv key s.file.length }, Except.ok ())
  | WOutcome.ok =>
    ({ file := s.file ++ record, kv := mapInsert s.kv key s.file.length }, Except.ok ())

/-- Model of `KvsEngine::get` for `KvStore` (src/engines/kv.rs lines 65-82):
an absent key yields `Ok(None)`; a present key is read back by a positioned
`read_line` at its recorded offset, a frame that fails to decode is a
corruption error, a decoded `Remove` yields `Ok(None)`, and a decoded `Set`
yields its value. -/
def KvStore.get (s : KvStore) (key : String) : Except KVError (Option String) :=
  match mapGet s.kv key with
  | none => Except.ok none
  | some pos =>
    match decodeRecord (readLineFrom s.file pos) with
    | none => Except.error KVError.corrupt
    | some record =>
      if record.cmd = Command.Remove then Except.ok none
      else Except.ok (some record.value)

/-- Model of `KvsEngine::remove` for `KvStore` (src/engines/kv.rs lines
84-106): an absent key fails with the not-found error before anything is
written; otherwise a `Remove` record is appended, flushed and length-checked,
and only then is the key deleted from the index. -/
def KvStore.remove (s : KvStore) (key : String) (io : WOutcome) :
    KvStore × Except KVError Unit :=
  if containsKey s.kv key then
    let record := encodeRecordLine { cmd := Command.Remove, key := key, value := "" }
    match io with
    | WOutcome.writeErr => (s, Except.error KVError.io)
    | WOutcome.flushErr => ({ s with file := s.file ++ record }, Except.error KVError.io)
    | WOutcome.short n =>
      if n < record.length then
        ({ s with file := s.file ++ record.take n }, Except.error KVError.corrupt)
      else
        ({ file := s.file ++ record, kv := mapRemove s.kv key }, Except.ok ())
    | WOutcome.ok =>
      ({ file := s.file ++ record, kv := mapRemove s.kv key }, Except.ok ())
  else (s, Except.error KVError.notFound)

/-- Replay loop of `KvStore::open` (src/engines/kv.rs lines 121-137):
`while pos < end`, read one line, decode it (a bad frame is a corruption
error), then `Remove` deletes the key and `Set` records the line's start
offset, and `pos` advances by the line's length. -/
def replayLoop (file : List Char) (pos : Nat) (kv : List (String × Nat)) :
    Except KVError (List (String × Nat)) :=
  if _h : pos < file.length then
    let line := readLineFrom file pos
    match decodeRecord line with
    | none => Except.error KVError.corrupt
    | some record =>
      match record.cmd with
      | Command.Remove => replayLoop file (pos + line.length) (mapRemove kv record.key)
      | Command.Set => replayLoop file (pos + line.length) (mapInsert kv record.key pos)
  else Except.ok kv
termination_by file.length - pos
decreasing_by
  all_goals
    have hd : file.drop pos ≠ [] := by
      intro hnil
      have hle := List.drop_eq_nil_iff.mp hnil
      omega
    have hlen : 0 < (readLineFrom file pos).length := by
      unfold readLineFrom
      obtain ⟨c, cs, hcs⟩ := List.exists_cons_of_ne_nil hd
      rw [hcs]
      unfold readLine
      split <;> simp
    simp only [readLineFrom] at hlen ⊢
    omega

/-- Model of `KvStore::open` (src/engines/kv.rs lines 110-151): given the
existing contents of `dir/log`, rebuild the index by replaying the log from
offset 0. -/
def KvStore.openStore (file : List Char) : Except KVError KvStore :=
  (replayLoop file 0 []).map (fun kv => { file := file, kv := kv })

/-- Loop body of `KvStore::compact` (src/engines/kv.rs lines 153-174), kept
faithful to the source: for each index entry `(k, pos)` the record is
positioned-read at `pos` FROM THE `log.temp` FILE the compaction itself is
writing (the source opens `File::open(&p)` where `p` is the temp path), a
frame that fails to decode panics through `.unwrap()` (modelled as `none`),
and a decoded `Set` line is appended to the temp file with the new offset
`writer.pos - n` recorded. -/
def compactLoop : List (String × Nat) → List Char → List (String × Nat) →
    Option (List Char × List (String × Nat))
  | [], temp, kv => some (temp, kv)
  | (k, pos) :: rest, temp, kv =>
    let line := readLineFrom temp pos
    match decodeRecord line with
    | none => none
    | some record =>
      if record.cmd = Command.Set then
        compactLoop rest (temp ++ line) (mapInsert kv k temp.length)
      else
        compactLoop rest temp kv

/-- Model of `KvStore::compact`: run the loop over the index entries starting
from an empty `log.temp`, then rename the temp file over the log and replace
the index; `none` models the panic of the `.unwrap()` calls inside the loop. -/
def KvStore.compact (s : KvStore) : Option KvStore :=
  (compactLoop s.kv [] []).map (fun p => { file := p.1, kv := p.2 })

/-! ## The positioned buffered writer

`BufWriterWithPos<W: Write + Seek>` (src/engines/kv.rs lines 231-266 and the
identical copy in src/engines/kv/writer.rs lines 60-95) wraps a buffered
writer around a seekable sink and mirrors the sink's position in `pos`.
The sink is modelled with the standard `Write + Seek` contract: a write puts
the buffer at the current cursor (zero-filling any gap past end of data) and
advances the cursor by its length. -/

/-- A seekable sink: its data and its cursor. -/
structure PosFile where
  data : List Char
  cursor : Nat
deriving DecidableEq, Repr

/-- One write against the `Write + Seek` contract: place the buffer at the
cursor and advance the cursor past it. -/
def PosFile.write (f : PosFile) (buf : List Char) : PosFile :=
  let padded := f.data ++ List.replicate (f.cursor - f.data.length) (Char.ofNat 0)
  { data := padded.take f.cursor ++ buf ++ padded.drop (f.cursor + buf.length),
    cursor := f.cursor + buf.length }

/-- The positioned writer: the wrapped sink and the tracked position. -/
structure BufWriterWithPos where
  writer : PosFile
  pos : Nat
deriving DecidableEq, Repr

/-- Model of `BufWriterWithPos::new`: `pos = writer.seek(SeekFrom::Current(0))`,
the sink's current position. -/
def BufWriterWithPos.new (f : PosFile) : BufWriterWithPos :=
  { writer := f, pos := f.cursor }

/-- Model of `BufWriterWithPos::write`: forward the write to the sink, then
set `pos = writer.seek(SeekFrom::Current(0))`, the sink's position after the
write; the returned count is the number of bytes written. -/
def BufWriterWithPos.write (w : BufWriterWithPos) (buf : List Char) :
    BufWriterWithPos × Nat :=
  let f := w.writer.write buf
  ({ writer := f, pos := f.cursor }, buf.length)

/-! ## The shared-queue thread pool

`worker_loop` (src/thread_pool/shared_queue.rs lines 41-53) runs
`loop { match consumer.lock().unwrap().recv() { Ok(job) => job(), Err(_) => exit } }`
with no `catch_unwind` and no respawn guard around `job()`, so a panic in a
job unwinds and terminates the worker thread.  The model below runs one
worker against the sequence of jobs it receives, where each job either
returns normally or panics; it returns how many jobs the worker executed and
whether the worker is still alive afterwards. -/

/-- Behaviour of one submitted job when a worker runs it. -/
inductive JobResult where
  | ok
  | panics
deriving DecidableEq, Repr

/-- One worker consuming its queue: a normal job lets the loop continue, the
channel closing ends the loop with the worker alive, and a panicking job
unwinds out of `worker_loop` — the thread dies and nothing further is
consumed. -/
def workerLoopRun : List JobResult → Nat × Bool
  | [] => (0, true)
  | JobResult.ok :: rest =>
    let r := workerLoopRun rest
    (r.1 + 1, r.2)
  | JobResult.panics :: _ => (1, false)

/-! ## LSM internal keys and file search -/

/-- Command tag of the LSM draft (`enum Command { Set, Remove, Seek }` in
src/engines/kv/mod.rs). -/
inductive LsmCommand where
  | Set
  | Remove
  | Seek
deriving DecidableEq, Repr

/-- `InternalKey` (src/engines/kv/mod.rs lines 38-53): a user key tagged with
a sequence number and a command. -/
structure InternalKey where
  sequence_num : Nat
  user_key : String
  command : LsmCommand
deriving DecidableEq, Repr

/-- Lexicographic strict order on character lists, modelling Rust's `Ord`
for `String` (lexicographic on bytes, which for UTF-8 agrees with
lexicographic on scalar values). -/
def strLt : List Char → List Char → Bool
  | [], [] => false
  | [], _ :: _ => true
  | _ :: _, [] => false
  | a :: as, b :: bs => if a < b then true else if b < a then false else strLt as bs

/-- Model of the `PartialOrd for InternalKey` comparison (src/engines/kv/mod.rs
lines 55-71): equal user keys compare by sequence number reversed (a greater
sequence number compares `Less`), different user keys compare by user key
ascending.  The `command` field is ignored.  The source always returns
`Some(ordering)`, so the model returns `Ordering` directly. -/
def InternalKey.cmp (a b : InternalKey) : Ordering :=
  if a.user_key = b.user_key then
    if a.sequence_num > b.sequence_num then Ordering.lt
    else if a.sequence_num < b.sequence_num then Ordering.gt
    else Ordering.eq
  else if strLt a.user_key.data b.user_key.data then Ordering.lt
  else Ordering.gt

/-- Key order used by `find_file`'s `key > &files[mid].largest_key`: the
derived `>` holds exactly when `partial_cmp` returns `Some(Greater)`. -/
def ikGt (a b : InternalKey) : Bool :=
  InternalKey.cmp a b = Ordering.gt

/-- A default internal key for out-of-range indexing in the loop model. -/
def defaultIK : InternalKey :=
  { sequence_num := 0, user_key := "", command := LsmCommand.Set }

/-- `FileMetaData` (src/engines/kv/version.rs lines 23-29). -/
structure FileMetaData where
  num : Int
  size : Nat
  refs : Nat
  smallest_key : InternalKey
  largest_key : InternalKey
deriving DecidableEq, Repr

/-- A default file record for out-of-range indexing in the loop model. -/
def defaultFile : FileMetaData :=
  { num := 0, size := 0, refs := 0, smallest_key := defaultIK, largest_key := defaultIK }

/-- Binary-search loop of `find_file` (src/engines/kv/version.rs lines
585-597): `while l < r { mid = (l+r)/2; if key > &files[mid].largest_key
{ l = mid+1 } else { r = mid } }; r`. -/
def findFileLoop (files : List FileMetaData) (key : InternalKey) (l r : Nat) : Nat :=
  if _h : l < r then
    let mid := (l + r) / 2
    if ikGt key (files.getD mid defaultFile).largest_key then
      findFileLoop files key (mid + 1) r
    else
      findFileLoop files key l mid
  else r
termination_by r - l
decreasing_by all_goals omega

/-- Model of `find_file`: binary search on the files' `largest_key`s with
`l = 0, r = files.len()`. -/
def find_file (files : List FileMetaData) (key : InternalKey) : Nat :=
  findFileLoop files key 0 files.length

/-- Non-strict key order: `a ≤ b` for the total comparison, i.e. not `Greater`.
Used to state that a level's files are sorted ascending by `largest_key`. -/
def ikLe (a b : InternalKey) : Prop :=
  InternalKey.cmp a b ≠ Ordering.gt

/-! ## Specification-level views of the log -/

/-- The byte contents of a log holding the given records in order. -/
def encodeLog (recs : List Record) : List Char :=
  (recs.map encodeRecordLine).flatten

/-- Effect of one replayed record on the index: `Set` inserts the record's
start offset, `Remove` deletes the key. -/
def stepRec (kv : List (String × Nat)) (r : Record) (pos : Nat) : List (String × Nat) :=
  match r.cmd with
  | Command.Remove => mapRemove kv r.key
  | Command.Set => mapInsert kv r.key pos

/-- Replay a record list at the level of records, tracking the running byte
offset; this is what `replayLoop` computes on a log of encoded records. -/
def applyRecs (kv : List (String × Nat)) (pos : Nat) : List Record → List (String × Nat)
  | [] => kv
  | r :: rest => applyRecs (stepRec kv r pos) (pos + (encodeRecordLine r).length) rest

/-- One client operation of the log-structured engine. -/
inductive Op where
  | set (key value : String)
  | remove (key : String)
deriving DecidableEq, Repr

/-- Run a sequence of operations, all with successful I/O, requiring every
operation to succeed (`none` when some `remove` hits an absent key). -/
def runOps : KvStore → List Op → Option KvStore
  | s, [] => some s
  | s, Op.set k v :: rest =>
    match s.set k v WOutcome.ok with
    | (s', Except.ok _) => runOps s' rest
    | (_, Except.error _) => none
  | s, Op.remove k :: rest =>
    match s.remove k WOutcome.ok with
    | (s', Except.ok _) => runOps s' rest
    | (_, Except.error _) => none

/-- The specification's intended final mapping: the last value set for a key,
unless a later remove deleted it. -/
def specLast (ops : List Op) (k : String) : Option String :=
  ops.foldl
    (fun acc op =>
      match op with
      | Op.set k' v => if k' = k then some v else acc
      | Op.remove k' => if k' = k then none else acc)
    none

/-- Structural store invariant: the log is a concatenation of encoded
records, and every index entry points at the start offset of a `Set` record
for its key. -/
def StoreInv (s : KvStore) : Prop :=
  ∃ recs, s.file = encodeLog recs ∧
    ∀ k p, mapGet s.kv k = some p →
      ∃ pre v post,
        recs = pre ++ { cmd := Command.Set, key := k, value := v } :: post ∧
        p = (encodeLog pre).length

/-- The claimed index invariant: decoding one line of the log at each mapped
offset yields a `Set` record carrying that key. -/
def indexInv (s : KvStore) : Prop :=
  ∀ k p, mapGet s.kv k = some p →
    ∃ r, decodeRecord (readLineFrom s.file p) = some r ∧
      r.cmd = Command.Set ∧ r.key = k

/-- Invariant tying a store to the operation history that produced it: the
log is the encoding of some record list, the index is that list's replay,
and the index realizes `specLast` — an absent key is unmapped, a live key is
mapped to the start offset of a `Set` record holding its last value. -/
def GoodStore (ops : List Op) (s : KvStore) : Prop :=
  ∃ recs,
    s.file = encodeLog recs ∧ s.kv = applyRecs [] 0 recs ∧
    ∀ k,
      match specLast ops k with
      | none => mapGet s.kv k = none
      | some v =>
        ∃ pre post,
          recs = pre ++ { cmd := Command.Set, key := k, value := v } :: post ∧
          mapGet s.kv k = some (encodeLog pre).length

/-! ## Lemmas: the index map -/

theorem mapGet_mapRemove (m : List (String × Nat)) (k k' : String) :
    mapGet (mapRemove m k) k' = if k = k' then none else mapGet m k' := by
  induction m with
  | nil => simp [mapRemove, mapGet]
  | cons e rest ih =>
    obtain ⟨a, b⟩ := e
    by_cases hak : a = k
    · subst hak
      rw [show mapRemove ((a, b) :: rest) a = mapRemove rest a by simp [mapRemove], ih]
      by_cases hkk : a = k'
      · subst hkk; simp
      · simp [mapGet, hkk]
    · rw [show mapRemove ((a, b) :: rest) k = (a, b) :: mapRemove rest k by
        simp [mapRemove, hak]]
      by_cases hak' : a = k'
      · subst hak'
        have hkk : ¬(k = a) := fun h => hak h.symm
        simp [mapGet, hkk]
      · simp only [mapGet, hak', if_false, reduceIte]
        exact ih

theorem mapGet_mapInsert (m : List (String × Nat)) (k : String) (v : Nat) (k' : String) :
    mapGet (mapInsert m k v) k' = if k = k' then some v else mapGet m k' := by
  simp only [mapInsert, mapGet]
  by_cases h : k = k'
  · simp [h]
  · simp only [h, if_false, reduceIte]
    rw [mapGet_mapRemove]
    simp [h]

theorem containsKey_iff (m : List (String × Nat)) (k : String) :
    containsKey m k = true ↔ ∃ p, mapGet m k = some p := by
  simp [containsKey, Option.isSome_iff_exists]

/-! ## Lemmas: the codec -/

theorem hexDigit_ne_nl (n : Nat) (h : n < 16) : hexDigit n ≠ '\n' := by
  interval_cases n <;> decide

theorem hexVal_hexDigit (n : Nat) (h : n < 16) : hexVal (hexDigit n) = some n := by
  interval_cases n <;> decide

theorem nl_not_mem_escChar (c : Char) : '\n' ∉ escChar c := by
  unfold escChar
  split_ifs with h1 h2 h3 h4 h5 h6 h7 h8
  · decide
  · decide
  · decide
  · decide
  · decide
  · decide
  · decide
  · have ha : hexDigit (c.toNat / 16) ≠ '\n' := hexDigit_ne_nl _ (by omega)
    have hb : hexDigit (c.toNat % 16) ≠ '\n' :=
      hexDigit_ne_nl _ (Nat.mod_lt _ (by norm_num))
    simp only [List.mem_cons, List.not_mem_nil, or_false]
    push_neg
    refine ⟨by decide, by decide, by decide, by decide, fun h => ha h.symm, fun h => hb h.symm⟩
  · simp only [List.mem_singleton]
    intro hc
    rw [← hc] at h8
    exact h8 (by decide)

theorem nl_not_mem_escapeStr (s : List Char) : '\n' ∉ escapeStr s := by
  induction s with
  | nil => simp [escapeStr]
  | cons c cs ih =>
    simp only [escapeStr, List.map_cons, List.flatten_cons, List.mem_append]
    rintro (h | h)
    · exact nl_not_mem_escChar c h
    · exact ih h

theorem encodeRecordLine_eq (r : Record) :
    encodeRecordLine r =
      (litCmd ++ escapeStr (encodeCmd r.cmd) ++ ['"'] ++ litKey ++
        escapeStr r.key.data ++ ['"'] ++ litValue ++
        escapeStr r.value.data ++ ['"'] ++ ['}']) ++ ['\n'] := by
  simp [encodeRecordLine, List.append_assoc]

theorem nl_not_mem_encBody (r : Record) :
    '\n' ∉ (litCmd ++ escapeStr (encodeCmd r.cmd) ++ ['"'] ++ litKey ++
      escapeStr r.key.data ++ ['"'] ++ litValue ++
      escapeStr r.value.data ++ ['"'] ++ ['}']) := by
  intro h
  simp only [List.mem_append] at h
  rcases h with (((((((((h | h) | h) | h) | h) | h) | h) | h) | h) | h)
  · exact absurd h (by decide)
  · exact nl_not_mem_escapeStr _ h
  · exact absurd h (by decide)
  · exact absurd h (by decide)
  · exact nl_not_mem_escapeStr _ h
  · exact absurd h (by decide)
  · exact absurd h (by decide)
  · exact nl_not_mem_escapeStr _ h
  · exact absurd h (by decide)
  · exact absurd h (by decide)

/-! ## Lemmas: line reads -/

theorem readLine_append (body rest : List Char) (h : '\n' ∉ body) :
    readLine (body ++ '\n' :: rest) = body ++ ['\n'] := by
  induction body with
  | nil => simp [readLine]
  | cons c cs ih =>
    simp only [List.mem_cons, not_or] at h
    rw [List.cons_append, readLine, if_neg (fun hc => h.1 hc.symm), ih h.2,
      List.cons_append]

theorem readLine_encodeRecordLine (r : Record) (rest : List Char) :
    readLine (encodeRecordLine r ++ rest) = encodeRecordLine r := by
  rw [encodeRecordLine_eq]
  have := readLine_append _ rest (nl_not_mem_encBody r)
  simpa [List.append_assoc] using this

theorem readLine_encodeRecordLine_nil (r : Record) :
    readLine (encodeRecordLine r) = encodeRecordLine r := by
  have := readLine_encodeRecordLine r []
  simpa using this

theorem readLineFrom_append (a b : List Char) :
    readLineFrom (a ++ b) a.length = readLine b := by
  simp [readLineFrom, List.drop_left]

theorem parseLit_append (lit s : List Char) : parseLit lit (lit ++ s) = some s := by
  have hp : lit.isPrefixOf (lit ++ s) = true := by
    rw [List.isPrefixOf_iff_prefix]
    exact List.prefix_append lit s
  simp [parseLit, hp, List.drop_left]

theorem parseStringBody_cons (c : Char) (rest : List Char) :
    parseStringBody (c :: rest) =
      (if c = '"' then some ([], rest)
       else if c = '\\' then
         match rest with
         | [] => none
         | e :: rest2 =>
           if e = '"' then (parseStringBody rest2).map (fun p => ('"' :: p.1, p.2))
           else if e = '\\' then (parseStringBody rest2).map (fun p => ('\\' :: p.1, p.2))
           else if e = '/' then (parseStringBody rest2).map (fun p => ('/' :: p.1, p.2))
           else if e = 'b' then
             (parseStringBody rest2).map (fun p => (Char.ofNat 8 :: p.1, p.2))
           else if e = 't' then
             (parseStringBody rest2).map (fun p => (Char.ofNat 9 :: p.1, p.2))
           else if e = 'n' then
             (parseStringBody rest2).map (fun p => (Char.ofNat 10 :: p.1, p.2))
           else if e = 'f' then
             (parseStringBody rest2).map (fun p => (Char.ofNat 12 :: p.1, p.2))
           else if e = 'r' then
             (parseStringBody rest2).map (fun p => (Char.ofNat 13 :: p.1, p.2))
           else if e = 'u' then
             match rest2 with
             | h1 :: h2 :: h3 :: h4 :: rest3 =>
               match hexVal h1, hexVal h2, hexVal h3, hexVal h4 with
               | some a, some b, some c3, some d =>
                 let n := ((a * 16 + b) * 16 + c3) * 16 + d
                 if 55296 ≤ n ∧ n < 57344 then none
                 else (parseStringBody rest3).map (fun p => (Char.ofNat n :: p.1, p.2))
               | _, _, _, _ => none
             | _ => none
           else none
       else if c.toNat < 32 then none
       else (parseStringBody rest).map (fun p => (c :: p.1, p.2))) := by
  rw [parseStringBody.eq_def]

theorem parseStringBody_escape (s rest : List Char) :
    parseStringBody (escapeStr s ++ '"' :: rest) = some (s, rest) := by
  induction s with
  | nil => simp [escapeStr, parseStringBody_cons]
  | cons c cs ih =>
    rw [show escapeStr (c :: cs) = escChar c ++ escapeStr cs by simp [escapeStr],
      List.append_assoc]
    unfold escChar
    split_ifs with h1 h2 h3 h4 h5 h6 h7 h8
    · subst h1; simp [parseStringBody_cons, ih]
    · subst h2; simp [parseStringBody_cons, ih]
    · subst h3; simp [parseStringBody_cons, ih]
    · subst h4; simp [parseStringBody_cons, ih]
    · subst h5; simp [parseStringBody_cons, ih]
    · subst h6; simp [parseStringBody_cons, ih]
    · subst h7; simp [parseStringBody_cons, ih]
    · have hd1 : hexVal (hexDigit (c.toNat / 16)) = some (c.toNat / 16) :=
        hexVal_hexDigit _ (by omega)
      have hd2 : hexVal (hexDigit (c.toNat % 16)) = some (c.toNat % 16) :=
        hexVal_hexDigit _ (Nat.mod_lt _ (by norm_num))
      have h0 : hexVal '0' = some 0 := by decide
      have hn : (c.toNat / 16) * 16 + c.toNat % 16 = c.toNat := by omega
      have hql : ('\\' : Char) ≠ '"' := by decide
      have hs : ¬(55296 ≤ (c.toNat / 16) * 16 + c.toNat % 16 ∧
          (c.toNat / 16) * 16 + c.toNat % 16 < 57344) := by omega
      simp only [List.cons_append, List.nil_append, parseStringBody_cons, hql, h0, hd1, hd2,
        if_false, reduceIte, reduceCtorEq]
      simp only [Nat.zero_mul, Nat.zero_add, hn, hs, if_false, reduceIte]
      simp [ih, Char.ofNat_toNat]
      omega
    · simp [parseStringBody_cons, h1, h2, h8, ih]

theorem set_ok_inv (s : KvStore) (k v : String) (io : WOutcome) (s' : KvStore)
    (h : s.set k v io = (s', Except.ok ())) :
    s' = { file := s.file ++ encodeRecordLine { cmd := Command.Set, key := k, value := v },
           kv := mapInsert s.kv k s.file.length } := by
  cases io
  case ok =>
    dsimp only [KvStore.set] at h
    injection h with h1 h2
    exact h1.symm
  case short n =>
    dsimp only [KvStore.set] at h
    by_cases hn : n < (encodeRecordLine { cmd := Command.Set, key := k, value := v }).length
    · rw [if_pos hn] at h
      injection h with h1 h2
      simp at h2
    · rw [if_neg hn] at h
      injection h with h1 h2
      exact h1.symm
  case writeErr =>
    dsimp only [KvStore.set] at h
    injection h with h1 h2
    simp at h2
  case flushErr =>
    dsimp only [KvStore.set] at h
    injection h with h1 h2
    simp at h2

theorem remove_ok_inv (s : KvStore) (k : String) (io : WOutcome) (s' : KvStore)
    (h : s.remove k io = (s', Except.ok ())) :
    s' = { file := s.file ++ encodeRecordLine { cmd := Command.Remove, key := k, value := "" },
           kv := mapRemove s.kv k } := by
  by_cases hc : containsKey s.kv k = true
  · dsimp only [KvStore.remove] at h
    rw [if_pos hc] at h
    cases io with
    | ok =>
      dsimp only at h
      injection h with h1 h2
      exact h1.symm
    | short n =>
      dsimp only at h
      by_cases hn : n < (encodeRecordLine { cmd := Command.Remove, key := k, value := "" }).length
      · rw [if_pos hn] at h
        injection h with h1 h2
        simp at h2
      · rw [if_neg hn] at h
        injection h with h1 h2
        exact h1.symm
    | writeErr =>
      dsimp only at h
      injection h with h1 h2
      simp at h2
    | flushErr =>
      dsimp only at h
      injection h with h1 h2
      simp at h2
  · dsimp only [KvStore.remove] at h
    rw [if_neg hc] at h
    injection h with h1 h2
    simp at h2

theorem decodeRecord_encodeRecordLine (r : Record) :
    decodeRecord (encodeRecordLine r) = some r := by
  obtain ⟨cmd, ⟨kd⟩, ⟨vd⟩⟩ := r
  have hb : parseLit ['}'] ['}', '\n'] = some ['\n'] := by decide
  have hw : (['\n'] : List Char).all isJsonWs = true := by decide
  cases cmd <;>
    simp [decodeRecord, encodeRecordLine, List.append_assoc, parseLit_append,
      parseStringBody_escape, encodeCmd, hb, hw] <;>
    decide

/-! ## Lemmas: log structure and replay -/

theorem encodeRecordLine_length_pos (r : Record) : 0 < (encodeRecordLine r).length := by
  rw [encodeRecordLine_eq]
  simp

theorem encodeLog_nil : encodeLog [] = [] := rfl

theorem encodeLog_cons (r : Record) (recs : List Record) :
    encodeLog (r :: recs) = encodeRecordLine r ++ encodeLog recs := by
  simp [encodeLog]

theorem encodeLog_append (a b : List Record) :
    encodeLog (a ++ b) = encodeLog a ++ encodeLog b := by
  simp [encodeLog]

theorem readLineFrom_encodeLog_mid (pre : List Record) (r : Record) (rest : List Char) :
    readLineFrom (encodeLog pre ++ (encodeRecordLine r ++ rest)) (encodeLog pre).length =
      encodeRecordLine r := by
  rw [readLineFrom_append, readLine_encodeRecordLine]

theorem replayLoop_eq (file : List Char) (pos : Nat) (kv : List (String × Nat)) :
    replayLoop file pos kv =
      if pos < file.length then
        match decodeRecord (readLineFrom file pos) with
        | none => Except.error KVError.corrupt
        | some record =>
          match record.cmd with
          | Command.Remove =>
            replayLoop file (pos + (readLineFrom file pos).length) (mapRemove kv record.key)
          | Command.Set =>
            replayLoop file (pos + (readLineFrom file pos).length) (mapInsert kv record.key pos)
      else Except.ok kv := by
  rw [replayLoop.eq_def]
  by_cases h : pos < file.length <;> simp [h]

theorem replayLoop_encodeLog (recs : List Record) :
    ∀ (base : List Char) (kv : List (String × Nat)),
      replayLoop (base ++ encodeLog recs) base.length kv =
        Except.ok (applyRecs kv base.length recs) := by
  induction recs with
  | nil =>
    intro base kv
    rw [replayLoop_eq]
    simp [encodeLog_nil, applyRecs]
  | cons r rest ih =>
    intro base kv
    have hlt : base.length < (base ++ encodeLog (r :: rest)).length := by
      have := encodeRecordLine_length_pos r
      simp [encodeLog_cons, List.length_append]
      omega
    have hline :
        readLineFrom (base ++ encodeLog (r :: rest)) base.length = encodeRecordLine r := by
      rw [readLineFrom_append, encodeLog_cons, readLine_encodeRecordLine]
    have hsplit :
        base ++ encodeLog (r :: rest) = (base ++ encodeRecordLine r) ++ encodeLog rest := by
      rw [encodeLog_cons, List.append_assoc]
    have hlen : base.length + (encodeRecordLine r).length =
        (base ++ encodeRecordLine r).length := by
      simp [List.length_append]
    rw [replayLoop_eq, if_pos hlt, hline, decodeRecord_encodeRecordLine]
    obtain ⟨rc, rk, rv⟩ := r
    cases rc
    · dsimp only
      rw [hsplit, hlen, ih]
      dsimp only [applyRecs, stepRec]
      rw [hlen]
    · dsimp only
      rw [hsplit, hlen, ih]
      dsimp only [applyRecs, stepRec]
      rw [hlen]

theorem openStore_encodeLog (recs : List Record) :
    KvStore.openStore (encodeLog recs) =
      Except.ok { file := encodeLog recs, kv := applyRecs [] 0 recs } := by
  have h := replayLoop_encodeLog recs [] []
  simp only [List.nil_append, List.length_nil] at h
  simp [KvStore.openStore, h, Except.map]

theorem applyRecs_append (rs : List Record) (r : Record) :
    ∀ (kv : List (String × Nat)) (pos : Nat),
      applyRecs kv pos (rs ++ [r]) =
        stepRec (applyRecs kv pos rs) r (pos + (encodeLog rs).length) := by
  induction rs with
  | nil => intro kv pos; simp [applyRecs, encodeLog_nil]
  | cons x xs ih =>
    intro kv pos
    rw [List.cons_append]
    dsimp only [applyRecs]
    rw [ih, encodeLog_cons, List.length_append, Nat.add_assoc]

theorem mapGet_applyRecs (recs : List Record) (k : String) (p : Nat)
    (h : mapGet (applyRecs [] 0 recs) k = some p) :
    ∃ pre v post,
      recs = pre ++ ({ cmd := Command.Set, key := k, value := v } : Record) :: post ∧
      p = (encodeLog pre).length := by
  induction recs using List.reverseRecOn with
  | nil => simp [applyRecs, mapGet] at h
  | append_singleton xs x ih =>
    rw [applyRecs_append] at h
    obtain ⟨cx, kx, vx⟩ := x
    cases cx
    · rw [show stepRec (applyRecs [] 0 xs) ⟨Command.Set, kx, vx⟩ (0 + (encodeLog xs).length) =
        mapInsert (applyRecs [] 0 xs) kx (0 + (encodeLog xs).length) from rfl,
        mapGet_mapInsert] at h
      by_cases hk : kx = k
      · subst hk
        rw [if_pos rfl] at h
        have hp : 0 + (encodeLog xs).length = p := Option.some.inj h
        exact ⟨xs, vx, [], by simp, by omega⟩
      · rw [if_neg hk] at h
        obtain ⟨pre, v, post, hrec, hp⟩ := ih h
        exact ⟨pre, v, post ++ [⟨Command.Set, kx, vx⟩], by rw [hrec]; simp, hp⟩
    · rw [show stepRec (applyRecs [] 0 xs) ⟨Command.Remove, kx, vx⟩ (0 + (encodeLog xs).length) =
        mapRemove (applyRecs [] 0 xs) kx from rfl, mapGet_mapRemove] at h
      by_cases hk : kx = k
      · simp [hk] at h
      · rw [if_neg hk] at h
        obtain ⟨pre, v, post, hrec, hp⟩ := ih h
        exact ⟨pre, v, post ++ [⟨Command.Remove, kx, vx⟩], by rw [hrec]; simp, hp⟩

/-! ## Lemmas: reads after appended records -/

theorem get_of_append_set (file : List Char) (kv : List (String × Nat)) (k v : String) :
    KvStore.get
      { file := file ++ encodeRecordLine { cmd := Command.Set, key := k, value := v },
        kv := mapInsert kv k file.length } k = Except.ok (some v) := by
  have hm : mapGet (mapInsert kv k file.length) k = some file.length := by
    rw [mapGet_mapInsert, if_pos rfl]
  have hr : readLineFrom (file ++ encodeRecordLine { cmd := Command.Set, key := k, value := v })
      file.length = encodeRecordLine { cmd := Command.Set, key := k, value := v } := by
    rw [readLineFrom_append, readLine_encodeRecordLine_nil]
  simp [KvStore.get, hm, hr, decodeRecord_encodeRecordLine]

theorem get_of_append_remove (file : List Char) (kv : List (String × Nat)) (k : String) :
    KvStore.get
      { file := file ++ encodeRecordLine { cmd := Command.Remove, key := k, value := "" },
        kv := mapRemove kv k } k = Except.ok none := by
  have hm : mapGet (mapRemove kv k) k = none := by
    rw [mapGet_mapRemove, if_pos rfl]
  simp [KvStore.get, hm]

/-! ## Lemmas: the structural store invariant -/

theorem storeInv_to_indexInv (s : KvStore) (h : StoreInv s) : indexInv s := by
  obtain ⟨recs, hfile, hmap⟩ := h
  intro k p hget
  obtain ⟨pre, v, post, hrec, hp⟩ := hmap k p hget
  refine ⟨{ cmd := Command.Set, key := k, value := v }, ?_, rfl, rfl⟩
  rw [hfile, hrec, hp, encodeLog_append, encodeLog_cons, readLineFrom_append,
    readLine_encodeRecordLine, decodeRecord_encodeRecordLine]

theorem storeInv_openStore (recs : List Record) (s : KvStore)
    (h : KvStore.openStore (encodeLog recs) = Except.ok s) : StoreInv s := by
  rw [openStore_encodeLog] at h
  have hs : s = { file := encodeLog recs, kv := applyRecs [] 0 recs } :=
    (Except.ok.inj h).symm
  subst hs
  exact ⟨recs, rfl, fun k p hget => mapGet_applyRecs recs k p hget⟩

theorem storeInv_set (s : KvStore) (k v : String) (io : WOutcome) (s' : KvStore)
    (hinv : StoreInv s) (h : s.set k v io = (s', Except.ok ())) : StoreInv s' := by
  obtain ⟨recs, hfile, hmap⟩ := hinv
  rw [set_ok_inv s k v io s' h]
  refine ⟨recs ++ [{ cmd := Command.Set, key := k, value := v }], ?_, ?_⟩
  · rw [hfile, encodeLog_append, encodeLog_cons, encodeLog_nil, List.append_nil]
  · intro k' p' hget
    rw [mapGet_mapInsert] at hget
    by_cases hk : k = k'
    · subst hk
      rw [if_pos rfl] at hget
      have hp : p' = s.file.length := (Option.some.inj hget).symm
      exact ⟨recs, v, [], rfl, by rw [hp, hfile]⟩
    · rw [if_neg hk] at hget
      obtain ⟨pre, w, post, hrec, hpp⟩ := hmap k' p' hget
      exact ⟨pre, w, post ++ [{ cmd := Command.Set, key := k, value := v }],
        by rw [hrec]; simp, hpp⟩

theorem storeInv_remove (s : KvStore) (k : String) (io : WOutcome) (s' : KvStore)
    (hinv : StoreInv s) (h : s.remove k io = (s', Except.ok ())) : StoreInv s' := by
  obtain ⟨recs, hfile, hmap⟩ := hinv
  rw [remove_ok_inv s k io s' h]
  refine ⟨recs ++ [{ cmd := Command.Remove, key := k, value := "" }], ?_, ?_⟩
  · rw [hfile, encodeLog_append, encodeLog_cons, encodeLog_nil, List.append_nil]
  · intro k' p' hget
    rw [mapGet_mapRemove] at hget
    by_cases hk : k = k'
    · rw [if_pos hk] at hget
      cases hget
    · rw [if_neg hk] at hget
      obtain ⟨pre, w, post, hrec, hpp⟩ := hmap k' p' hget
      exact ⟨pre, w, post ++ [{ cmd := Command.Remove, key := k, value := "" }],
        by rw [hrec]; simp, hpp⟩

/-! ## Lemmas: operation histories -/

theorem specLast_append (ops : List Op) (op : Op) (k : String) :
    specLast (ops ++ [op]) k =
      (match op with
       | Op.set k' v => if k' = k then some v else specLast ops k
       | Op.remove k' => if k' = k then none else specLast ops k) := by
  cases op <;> simp [specLast, List.foldl_append]

theorem get_at_recordStart (pre post : List Record) (r : Record)
    (kv : List (String × Nat)) (k : String)
    (hget : mapGet kv k = some (encodeLog pre).length) :
    KvStore.get { file := encodeLog (pre ++ r :: post), kv := kv } k =
      (if r.cmd = Command.Remove then Except.ok none else Except.ok (some r.value)) := by
  have hr : readLineFrom (encodeLog (pre ++ r :: post)) (encodeLog pre).length =
      encodeRecordLine r := by
    rw [encodeLog_append, encodeLog_cons, readLineFrom_append, readLine_encodeRecordLine]
  simp [KvStore.get, hget, hr, decodeRecord_encodeRecordLine]

theorem goodStore_set (ops : List Op) (s : KvStore) (k v : String) (s' : KvStore)
    (hg : GoodStore ops s) (h : s.set k v WOutcome.ok = (s', Except.ok ())) :
    GoodStore (ops ++ [Op.set k v]) s' := by
  obtain ⟨recs, hfile, hkv, hspec⟩ := hg
  rw [set_ok_inv s k v WOutcome.ok s' h]
  refine ⟨recs ++ [{ cmd := Command.Set, key := k, value := v }], ?_, ?_, ?_⟩
  · rw [hfile, encodeLog_append, encodeLog_cons, encodeLog_nil, List.append_nil]
  · rw [applyRecs_append]
    dsimp only [stepRec]
    rw [← hkv, hfile, Nat.zero_add]
  · intro k'
    rw [specLast_append]
    dsimp only
    by_cases hk : k = k'
    · subst hk
      rw [if_pos rfl]
      refine ⟨recs, [], rfl, ?_⟩
      rw [mapGet_mapInsert, if_pos rfl, hfile]
    · rw [if_neg hk]
      have hs := hspec k'
      cases hsl : specLast ops k' with
      | none =>
        rw [hsl] at hs
        show mapGet (mapInsert s.kv k s.file.length) k' = none
        rw [mapGet_mapInsert, if_neg hk, hs]
      | some w =>
        rw [hsl] at hs
        obtain ⟨pre, post, hrec, hget⟩ := hs
        refine ⟨pre, post ++ [{ cmd := Command.Set, key := k, value := v }],
          by rw [hrec]; simp, ?_⟩
        rw [mapGet_mapInsert, if_neg hk, hget]

theorem goodStore_remove (ops : List Op) (s : KvStore) (k : String) (s' : KvStore)
    (hg : GoodStore ops s) (h : s.remove k WOutcome.ok = (s', Except.ok ())) :
    GoodStore (ops ++ [Op.remove k]) s' := by
  obtain ⟨recs, hfile, hkv, hspec⟩ := hg
  rw [remove_ok_inv s k WOutcome.ok s' h]
  refine ⟨recs ++ [{ cmd := Command.Remove, key := k, value := "" }], ?_, ?_, ?_⟩
  · rw [hfile, encodeLog_append, encodeLog_cons, encodeLog_nil, List.append_nil]
  · rw [applyRecs_append]
    dsimp only [stepRec]
    rw [← hkv]
  · intro k'
    rw [specLast_append]
    dsimp only
    by_cases hk : k = k'
    · subst hk
      rw [if_pos rfl]
      show mapGet (mapRemove s.kv k) k = none
      rw [mapGet_mapRemove, if_pos rfl]
    · rw [if_neg hk]
      have hs := hspec k'
      cases hsl : specLast ops k' with
      | none =>
        rw [hsl] at hs
        show mapGet (mapRemove s.kv k) k' = none
        rw [mapGet_mapRemove, if_neg hk, hs]
      | some w =>
        rw [hsl] at hs
        obtain ⟨pre, post, hrec, hget⟩ := hs
        refine ⟨pre, post ++ [{ cmd := Command.Remove, key := k, value := "" }],
          by rw [hrec]; simp, ?_⟩
        rw [mapGet_mapRemove, if_neg hk, hget]

theorem runOps_goodStore (ops : List Op) :
    ∀ (ops0 : List Op) (s0 s : KvStore),
      GoodStore ops0 s0 → runOps s0 ops = some s → GoodStore (ops0 ++ ops) s := by
  induction ops with
  | nil =>
    intro ops0 s0 s hg h
    obtain rfl : s0 = s := Option.some.inj h
    simpa using hg
  | cons op rest ih =>
    intro ops0 s0 s hg h
    cases op with
    | set k v =>
      dsimp only [runOps] at h
      rcases hrm : s0.set k v WOutcome.ok with ⟨s1, res⟩
      rw [hrm] at h
      cases res with
      | error e => simp at h
      | ok u =>
        cases u
        dsimp only at h
        have hg' := goodStore_set ops0 s0 k v s1 hg hrm
        have := ih (ops0 ++ [Op.set k v]) s1 s hg' h
        simpa [List.append_assoc] using this
    | remove k =>
      dsimp only [runOps] at h
      rcases hrm : s0.remove k WOutcome.ok with ⟨s1, res⟩
      rw [hrm] at h
      cases res with
      | error e => simp at h
      | ok u =>
        cases u
        dsimp only at h
        have hg' := goodStore_remove ops0 s0 k s1 hg hrm
        have := ih (ops0 ++ [Op.remove k]) s1 s hg' h
        simpa [List.append_assoc] using this

/-! ## Claim theorems -/

/-- C1: after a successful `set(k, v)` on a handle (clones share the same
state through `Arc`s, so this covers any clone), `get(k)` returns `v`: the
record is appended at start offset `pos` — the pre-write file length,
computed as the post-write position minus the bytes written — the index maps
`k` to `pos` once the flush and length check succeed, and the positioned
read at `pos` decodes a `Set` record whose value is `v`. -/
theorem c1_set_then_get (s : KvStore) (k v : String) (io : WOutcome) (s' : KvStore)
    (h : s.set k v io = (s', Except.ok ())) : s'.get k = Except.ok (some v) := by
  rw [set_ok_inv s k v io s' h]
  exact get_of_append_set s.file s.kv k v

theorem c1_witness :
    freshStore.set "a" "b" WOutcome.ok =
      ((freshStore.set "a" "b" WOutcome.ok).1, Except.ok ()) ∧
    ((freshStore.set "a" "b" WOutcome.ok).1).get "a" = Except.ok (some "b") :=
  ⟨rfl, c1_set_then_get freshStore "a" "b" WOutcome.ok _ rfl⟩

/-- C4: `remove(k)` on an absent key fails with the not-found error and
leaves the state (log and index) untouched; `get(k)` on an absent key
returns `Ok(None)` rather than an error; and a successful `remove(k)`
appends a `Remove` record and deletes `k` from the index, after which
`get(k)` returns `Ok(None)`. -/
theorem c4_remove_notfound_get_none :
    (∀ (s : KvStore) (k : String) (io : WOutcome), mapGet s.kv k = none →
      s.remove k io = (s, Except.error KVError.notFound)) ∧
    (∀ (s : KvStore) (k : String), mapGet s.kv k = none →
      s.get k = Except.ok none) ∧
    (∀ (s : KvStore) (k : String) (io : WOutcome) (s' : KvStore),
      s.remove k io = (s', Except.ok ()) → s'.get k = Except.ok none) := by
  refine ⟨?_, ?_, ?_⟩
  · intro s k io h
    have hc : containsKey s.kv k = false := by simp [containsKey, h]
    simp [KvStore.remove, hc]
  · intro s k h
    simp [KvStore.get, h]
  · intro s k io s' h
    rw [remove_ok_inv s k io s' h]
    exact get_of_append_remove s.file s.kv k

theorem c4_witness :
    freshStore.remove "a" WOutcome.ok = (freshStore, Except.error KVError.notFound) ∧
    freshStore.get "a" = Except.ok none ∧
    (((freshStore.set "a" "b" WOutcome.ok).1.remove "a" WOutcome.ok).1).get "a" =
      Except.ok none :=
  ⟨c4_remove_notfound_get_none.1 freshStore "a" WOutcome.ok rfl,
   c4_remove_notfound_get_none.2.1 freshStore "a" rfl,
   c4_remove_notfound_get_none.2.2 ((freshStore.set "a" "b" WOutcome.ok).1) "a"
     WOutcome.ok (((freshStore.set "a" "b" WOutcome.ok).1.remove "a" WOutcome.ok).1) rfl⟩

/-- C10: whenever `set` or `remove` returns an error — an I/O failure of the
write or flush, the short-write corruption error, or remove-of-absent-key —
the in-memory index is exactly as it was before the call: both operations
mutate the index only after the write, flush and length check have all
succeeded. -/
theorem c10_errors_leave_index (s : KvStore) (k v : String) (io : WOutcome) :
    (∀ e, (s.set k v io).2 = Except.error e → (s.set k v io).1.kv = s.kv) ∧
    (∀ e, (s.remove k io).2 = Except.error e → (s.remove k io).1.kv = s.kv) := by
  constructor
  · intro e h
    cases io with
    | ok => dsimp only [KvStore.set] at h; simp at h
    | short n =>
      dsimp only [KvStore.set] at h ⊢
      by_cases hn : n < (encodeRecordLine { cmd := Command.Set, key := k, value := v }).length
      · rw [if_pos hn]
      · rw [if_neg hn] at h; simp at h
    | writeErr => rfl
    | flushErr => rfl
  · intro e h
    by_cases hc : containsKey s.kv k = true
    · cases io with
      | ok =>
        dsimp only [KvStore.remove] at h
        rw [if_pos hc] at h
        simp at h
      | short n =>
        dsimp only [KvStore.remove] at h ⊢
        rw [if_pos hc] at h ⊢
        by_cases hn : n <
            (encodeRecordLine { cmd := Command.Remove, key := k, value := "" }).length
        · rw [if_pos hn]
        · rw [if_neg hn] at h; simp at h
      | writeErr =>
        dsimp only [KvStore.remove] at h ⊢
        rw [if_pos hc]
      | flushErr =>
        dsimp only [KvStore.remove] at h ⊢
        rw [if_pos hc]
    · dsimp only [KvStore.remove] at h ⊢
      rw [if_neg hc]

theorem c10_witness :
    (freshStore.set "a" "b" WOutcome.writeErr).1.kv = freshStore.kv ∧
    (freshStore.remove "a" WOutcome.ok).1.kv = freshStore.kv :=
  ⟨(c10_errors_leave_index freshStore "a" "b" WOutcome.writeErr).1 KVError.io rfl,
   (c10_errors_leave_index freshStore "a" "b" WOutcome.ok).2 KVError.notFound rfl⟩

/-- C2: for every finite sequence of successful `set`/`remove` operations on
a freshly opened store, reopening the resulting log yields a store whose
`get(k)` returns the last value set for every key not subsequently removed
and not-found for every removed or never-set key: `open` replays the log
from offset 0, inserting the record's start offset on `Set` and deleting the
entry on `Remove`. -/
theorem c2_reopen_preserves (ops : List Op) (s : KvStore)
    (h : runOps freshStore ops = some s) :
    ∃ s2, KvStore.openStore s.file = Except.ok s2 ∧
      ∀ k, s2.get k = Except.ok (specLast ops k) := by
  have h0 : GoodStore [] freshStore := ⟨[], rfl, rfl, fun _ => rfl⟩
  have hg := runOps_goodStore ops [] freshStore s h0 h
  rw [List.nil_append] at hg
  obtain ⟨f, m⟩ := s
  obtain ⟨recs, hfile, hkv, hspec⟩ := hg
  dsimp only at hfile hkv hspec
  subst hfile
  subst hkv
  refine ⟨_, openStore_encodeLog recs, ?_⟩
  intro k
  have hs := hspec k
  cases hsl : specLast ops k with
  | none =>
    rw [hsl] at hs
    simp [KvStore.get, hs]
  | some v =>
    rw [hsl] at hs
    obtain ⟨pre, post, hrec, hget⟩ := hs
    nth_rewrite 1 [hrec]
    rw [get_at_recordStart pre post _ _ k hget]
    simp

theorem c2_witness :
    ∃ s2,
      KvStore.openStore ((freshStore.set "a" "b" WOutcome.ok).1).file = Except.ok s2 ∧
      ∀ k, s2.get k = Except.ok (specLast [Op.set "a" "b"] k) :=
  c2_reopen_preserves [Op.set "a" "b"] ((freshStore.set "a" "b" WOutcome.ok).1) rfl

/-- C5: through every successful `open`, `set`, and `remove` the engine
maintains the invariant that every index mapping `(k → p)` points at the
start offset of a log line that decodes to a `Set` record with key `k`.
The structural strengthening `StoreInv` (the log is a concatenation of
encoded records and every mapping is the start offset of a `Set` record for
its key) is carried through the same steps and implies the claimed
`indexInv`. -/
theorem c5_index_invariant :
    (∀ (recs : List Record) (s : KvStore),
      KvStore.openStore (encodeLog recs) = Except.ok s → StoreInv s ∧ indexInv s) ∧
    (∀ (s : KvStore) (k v : String) (io : WOutcome) (s' : KvStore),
      StoreInv s → s.set k v io = (s', Except.ok ()) → StoreInv s' ∧ indexInv s') ∧
    (∀ (s : KvStore) (k : String) (io : WOutcome) (s' : KvStore),
      StoreInv s → s.remove k io = (s', Except.ok ()) → StoreInv s' ∧ indexInv s') := by
  refine ⟨fun recs s h => ?_, fun s k v io s' hinv h => ?_, fun s k io s' hinv h => ?_⟩
  · have hs : StoreInv s := storeInv_openStore recs s h
    exact ⟨hs, storeInv_to_indexInv s hs⟩
  · have hs : StoreInv s' := storeInv_set s k v io s' hinv h
    exact ⟨hs, storeInv_to_indexInv s' hs⟩
  · have hs : StoreInv s' := storeInv_remove s k io s' hinv h
    exact ⟨hs, storeInv_to_indexInv s' hs⟩

theorem c5_witness : StoreInv freshStore ∧ indexInv freshStore :=
  c5_index_invariant.1 [] freshStore (openStore_encodeLog [])

/-- C3 (failing input): after one successful `set("a","b")` from a fresh
store, the index holds exactly one live key (`M = 1`), yet `compact` panics
instead of producing a one-record log: the source positioned-reads each
mapped offset from the `log.temp` file it has just created — which is empty —
instead of from the live log, the empty read fails to decode, and the
`.unwrap()` panics (modelled as `none`). -/
theorem c3_compact_panics :
    ((freshStore.set "a" "b" WOutcome.ok).1).kv = [("a", 0)] ∧
    ((freshStore.set "a" "b" WOutcome.ok).1).compact = none :=
  ⟨rfl, rfl⟩

/-- C6 (failing input): `worker_loop` runs jobs with no `catch_unwind` and no
respawn guard, so a panicking job unwinds and kills the worker thread: of a
panicking job followed by a normal one, only the first is attempted and the
worker is dead afterwards — the pool does not retain its worker count and
never runs the second job.  A pool of non-panicking jobs, by contrast, runs
them all with the worker still alive. -/
theorem c6_panic_kills_worker :
    workerLoopRun [JobResult.panics, JobResult.ok] = (1, false) ∧
    workerLoopRun [JobResult.ok, JobResult.ok] = (2, true) :=
  ⟨rfl, rfl⟩

/-- C7: for the positioned buffered writer, a write of a buffer of N bytes
returns N bytes written, moves the reported position from `pos` to
`pos + N`, and the N bytes reside at offset `pos` in the file — under the
invariant that the tracked position agrees with the sink's cursor, which
`new` establishes (last conjunct) and every write preserves (fourth
conjunct). -/
theorem c7_writer_position (w : BufWriterWithPos) (buf : List Char)
    (hinv : w.pos = w.writer.cursor) :
    (w.write buf).2 = buf.length ∧
    (w.write buf).1.pos = w.pos + buf.length ∧
    ((w.write buf).1.writer.data.drop w.pos).take buf.length = buf ∧
    (w.write buf).1.pos = (w.write buf).1.writer.cursor ∧
    ∀ f, (BufWriterWithPos.new f).pos = (BufWriterWithPos.new f).writer.cursor := by
  refine ⟨rfl, ?_, ?_, rfl, fun f => rfl⟩
  · dsimp only [BufWriterWithPos.write, PosFile.write]
    rw [hinv]
  · dsimp only [BufWriterWithPos.write, PosFile.write]
    have hkey : ∀ (A B C : List Char) (n : Nat), A.length = n →
        (A ++ (B ++ C)).drop n = B ++ C := by
      intro A B C n hA
      rw [← hA, List.drop_left]
    have hAlen :
        ((w.writer.data ++
            List.replicate (w.writer.cursor - w.writer.data.length) (Char.ofNat 0)).take
          w.writer.cursor).length = w.writer.cursor := by
      rw [List.length_take, List.length_append, List.length_replicate]
      omega
    rw [hinv, List.append_assoc, hkey _ _ _ _ hAlen, List.take_left]

theorem c7_witness :
    ((BufWriterWithPos.new { data := ['x'], cursor := 1 }).write ['a', 'b']).1.pos = 3 ∧
    ((((BufWriterWithPos.new { data := ['x'], cursor := 1 }).write
        ['a', 'b']).1.writer.data.drop 1).take 2 = ['a', 'b']) := by
  have h := c7_writer_position (BufWriterWithPos.new { data := ['x'], cursor := 1 })
    ['a', 'b'] rfl
  exact ⟨h.2.1, h.2.2.1⟩

/-! ## Lemmas: the lexicographic string order -/

theorem strLt_irrefl (s : List Char) : strLt s s = false := by
  induction s with
  | nil => rfl
  | cons c cs ih => simp [strLt, ih]

theorem string_eq_of_data (x y : String) (h : x.data = y.data) : x = y := by
  cases x
  cases y
  simp only at h
  rw [h]

theorem strLt_asymm (a : List Char) :
    ∀ b, strLt a b = true → strLt b a = false := by
  induction a with
  | nil =>
    intro b h
    cases b with
    | nil => simp [strLt] at h
    | cons d ds => rfl
  | cons c cs ih =>
    intro b h
    cases b with
    | nil => simp [strLt] at h
    | cons d ds =>
      simp only [strLt] at h ⊢
      by_cases h1 : c < d
      · rw [if_neg (lt_asymm h1), if_pos h1]
      · by_cases h2 : d < c
        · rw [if_neg h1, if_pos h2] at h
          simp at h
        · rw [if_neg h1, if_neg h2] at h
          rw [if_neg h2, if_neg h1]
          exact ih ds h

theorem strLt_trans (a : List Char) :
    ∀ b c, strLt a b = true → strLt b c = true → strLt a c = true := by
  induction a with
  | nil =>
    intro b c hab hbc
    cases b with
    | nil => simp [strLt] at hab
    | cons b0 bs =>
      cases c with
      | nil => simp [strLt] at hbc
      | cons c0 cs => rfl
  | cons a0 as ih =>
    intro b c hab hbc
    cases b with
    | nil => simp [strLt] at hab
    | cons b0 bs =>
      cases c with
      | nil => simp [strLt] at hbc
      | cons c0 cs =>
        simp only [strLt] at hab hbc ⊢
        by_cases h1 : a0 < b0
        · by_cases h2 : b0 < c0
          · rw [if_pos (lt_trans h1 h2)]
          · by_cases h3 : c0 < b0
            · rw [if_neg h2, if_pos h3] at hbc
              simp at hbc
            · have hbe : b0 = c0 := le_antisymm (not_lt.mp h3) (not_lt.mp h2)
              rw [← hbe, if_pos h1]
        · by_cases h4 : b0 < a0
          · rw [if_neg h1, if_pos h4] at hab
            simp at hab
          · have hae : a0 = b0 := le_antisymm (not_lt.mp h4) (not_lt.mp h1)
            rw [if_neg h1, if_neg h4] at hab
            subst hae
            by_cases h2 : a0 < c0
            · rw [if_pos h2]
            · by_cases h3 : c0 < a0
              · rw [if_neg h2, if_pos h3] at hbc
                simp at hbc
              · rw [if_neg h2, if_neg h3] at hbc ⊢
                exact ih bs cs hab hbc

theorem strLt_connex (a : List Char) :
    ∀ b, a ≠ b → strLt a b = true ∨ strLt b a = true := by
  induction a with
  | nil =>
    intro b h
    cases b with
    | nil => exact absurd rfl h
    | cons d ds => left; rfl
  | cons c cs ih =>
    intro b h
    cases b with
    | nil => right; rfl
    | cons d ds =>
      by_cases h1 : c < d
      · left; simp [strLt, h1]
      · by_cases h2 : d < c
        · right; simp [strLt, h2, h1]
        · have hcd : c = d := le_antisymm (not_lt.mp h2) (not_lt.mp h1)
          subst hcd
          have hne : cs ≠ ds := fun hh => h (by rw [hh])
          rcases ih ds hne with h3 | h3
          · left; simp [strLt, lt_irrefl, h3]
          · right; simp [strLt, lt_irrefl, h3]

/-! ## Lemmas: the internal-key comparison -/

theorem cmp_eq_iff (a b : InternalKey) :
    InternalKey.cmp a b = Ordering.eq ↔
      a.user_key = b.user_key ∧ a.sequence_num = b.sequence_num := by
  unfold InternalKey.cmp
  by_cases h1 : a.user_key = b.user_key
  · rw [if_pos h1]
    by_cases h2 : a.sequence_num > b.sequence_num
    · rw [if_pos h2]
      simp [h1]
      omega
    · rw [if_neg h2]
      by_cases h3 : a.sequence_num < b.sequence_num
      · rw [if_pos h3]
        simp [h1]
        omega
      · rw [if_neg h3]
        simp [h1]
        omega
  · rw [if_neg h1]
    by_cases h4 : strLt a.user_key.data b.user_key.data = true
    · rw [if_pos h4]
      simp [h1]
    · rw [if_neg h4]
      simp [h1]

theorem cmp_lt_iff (a b : InternalKey) :
    InternalKey.cmp a b = Ordering.lt ↔
      ((a.user_key = b.user_key ∧ b.sequence_num < a.sequence_num) ∨
       (a.user_key ≠ b.user_key ∧ strLt a.user_key.data b.user_key.data = true)) := by
  unfold InternalKey.cmp
  by_cases h1 : a.user_key = b.user_key
  · rw [if_pos h1]
    by_cases h2 : a.sequence_num > b.sequence_num
    · rw [if_pos h2]
      simp [h1]
      omega
    · rw [if_neg h2]
      by_cases h3 : a.sequence_num < b.sequence_num
      · rw [if_pos h3]
        simp [h1]
        omega
      · rw [if_neg h3]
        simp [h1]
        omega
  · rw [if_neg h1]
    by_cases h4 : strLt a.user_key.data b.user_key.data = true
    · rw [if_pos h4]
      simp [h1, h4]
    · rw [if_neg h4]
      simp [h1, h4]

theorem cmp_ne_gt_iff (a b : InternalKey) :
    InternalKey.cmp a b ≠ Ordering.gt ↔
      (strLt a.user_key.data b.user_key.data = true ∨
       (a.user_key = b.user_key ∧ b.sequence_num ≤ a.sequence_num)) := by
  unfold InternalKey.cmp
  by_cases h1 : a.user_key = b.user_key
  · have hirr : strLt a.user_key.data b.user_key.data = false := by
      rw [h1]
      exact strLt_irrefl _
    rw [if_pos h1]
    by_cases h2 : a.sequence_num > b.sequence_num
    · rw [if_pos h2]
      simp [hirr, h1]
      omega
    · rw [if_neg h2]
      by_cases h3 : a.sequence_num < b.sequence_num
      · rw [if_pos h3]
        constructor
        · intro hcontra
          exact absurd rfl hcontra
        · rintro (hfalse | ⟨_, hle⟩)
          · rw [hirr] at hfalse
            simp at hfalse
          · exact absurd hle (by omega)
      · rw [if_neg h3]
        simp [hirr, h1]
        omega
  · rw [if_neg h1]
    by_cases h4 : strLt a.user_key.data b.user_key.data = true
    · rw [if_pos h4]
      simp [h4]
    · rw [if_neg h4]
      simp [h4, h1]

theorem cmp_le_trans (a b c : InternalKey)
    (hab : InternalKey.cmp a b ≠ Ordering.gt)
    (hbc : InternalKey.cmp b c ≠ Ordering.gt) :
    InternalKey.cmp a c ≠ Ordering.gt := by
  rw [cmp_ne_gt_iff] at hab hbc ⊢
  rcases hab with h | ⟨he, hs⟩ <;> rcases hbc with h' | ⟨he', hs'⟩
  · exact Or.inl (strLt_trans _ _ _ h h')
  · rw [← he'] at *
    exact Or.inl h
  · rw [he] at *
    exact Or.inl h'
  · exact Or.inr ⟨he.trans he', le_trans hs' hs⟩

/-- C8 (counterexample): the comparison is not consistent with the derived
structural equality: two internal keys with the same user key and sequence
number but different commands compare `Equal` yet are not equal. -/
theorem c8_counterexample :
    InternalKey.cmp
        { sequence_num := 5, user_key := "a", command := LsmCommand.Set }
        { sequence_num := 5, user_key := "a", command := LsmCommand.Remove } =
      Ordering.eq ∧
    ({ sequence_num := 5, user_key := "a", command := LsmCommand.Set } : InternalKey) ≠
      { sequence_num := 5, user_key := "a", command := LsmCommand.Remove } := by
  constructor <;> decide

/-- C8 (amended): the comparison on `InternalKey` is a total preorder that
ignores the `command` field: it compares `Equal` exactly when both user key
and sequence number agree (so it is not consistent with structural
equality), orders by user key ascending and then sequence number descending
— for equal user keys the greater sequence number compares strictly less —
is asymmetric (`Less` one way exactly when `Greater` the other), and
transitive. -/
theorem c8_internal_key_order :
    (∀ a b : InternalKey, InternalKey.cmp a b = Ordering.eq ↔
      a.user_key = b.user_key ∧ a.sequence_num = b.sequence_num) ∧
    (∀ a b : InternalKey, a.user_key = b.user_key →
      b.sequence_num < a.sequence_num → InternalKey.cmp a b = Ordering.lt) ∧
    (∀ a b : InternalKey, a.user_key ≠ b.user_key →
      strLt a.user_key.data b.user_key.data = true →
      InternalKey.cmp a b = Ordering.lt) ∧
    (∀ a b : InternalKey,
      InternalKey.cmp a b = Ordering.lt ↔ InternalKey.cmp b a = Ordering.gt) ∧
    (∀ a b c : InternalKey, InternalKey.cmp a b = Ordering.lt →
      InternalKey.cmp b c = Ordering.lt → InternalKey.cmp a c = Ordering.lt) := by
  have hgt_iff : ∀ a b : InternalKey, InternalKey.cmp a b = Ordering.gt ↔
      ((a.user_key = b.user_key ∧ a.sequence_num < b.sequence_num) ∨
       (a.user_key ≠ b.user_key ∧ strLt a.user_key.data b.user_key.data = false)) := by
    intro a b
    unfold InternalKey.cmp
    by_cases h1 : a.user_key = b.user_key
    · rw [if_pos h1]
      by_cases h2 : a.sequence_num > b.sequence_num
      · rw [if_pos h2]
        simp [h1]
        omega
      · rw [if_neg h2]
        by_cases h3 : a.sequence_num < b.sequence_num
        · rw [if_pos h3]
          simp [h1]
          omega
        · rw [if_neg h3]
          simp [h1]
          omega
    · rw [if_neg h1]
      by_cases h4 : strLt a.user_key.data b.user_key.data = true
      · rw [if_pos h4]
        simp [h1, h4]
      · rw [if_neg h4]
        simp [h1]
        exact Bool.not_eq_true _ |>.mp h4
  refine ⟨cmp_eq_iff, ?_, ?_, ?_, ?_⟩
  · intro a b he hs
    rw [cmp_lt_iff]
    exact Or.inl ⟨he, hs⟩
  · intro a b hne hlt
    rw [cmp_lt_iff]
    exact Or.inr ⟨hne, hlt⟩
  · intro a b
    rw [cmp_lt_iff, hgt_iff]
    constructor
    · rintro (⟨he, hs⟩ | ⟨hne, hlt⟩)
      · exact Or.inl ⟨he.symm, hs⟩
      · refine Or.inr ⟨fun hh => hne hh.symm, strLt_asymm _ _ hlt⟩
    · rintro (⟨he, hs⟩ | ⟨hne, hlt⟩)
      · exact Or.inl ⟨he.symm, hs⟩
      · have hne' : a.user_key ≠ b.user_key := fun hh => hne hh.symm
        have hdne : a.user_key.data ≠ b.user_key.data := by
          intro hd
          exact hne' (string_eq_of_data _ _ hd)
        rcases strLt_connex _ _ hdne with hc | hc
        · exact Or.inr ⟨hne', hc⟩
        · rw [hc] at hlt
          simp at hlt
  · intro a b c hab hbc
    rw [cmp_lt_iff] at hab hbc ⊢
    rcases hab with ⟨he, hs⟩ | ⟨hne, hlt⟩ <;> rcases hbc with ⟨he', hs'⟩ | ⟨hne', hlt'⟩
    · exact Or.inl ⟨he.trans he', lt_trans hs' hs⟩
    · refine Or.inr ⟨?_, ?_⟩
      · rw [he]
        exact hne'
      · rw [he]
        exact hlt'
    · refine Or.inr ⟨?_, ?_⟩
      · rw [← he']
        exact hne
      · rw [← he']
        exact hlt
    · refine Or.inr ⟨?_, strLt_trans _ _ _ hlt hlt'⟩
      intro hh
      have h2 := strLt_trans _ _ _ hlt hlt'
      rw [hh, strLt_irrefl] at h2
      exact Bool.false_ne_true h2

theorem c8_witness :
    InternalKey.cmp { sequence_num := 2, user_key := "k", command := LsmCommand.Set }
      { sequence_num := 1, user_key := "k", command := LsmCommand.Set } = Ordering.lt :=
  c8_internal_key_order.2.1 _ _ rfl (by decide)

/-! ## Lemmas: find_file -/

theorem pairwise_ikLe_getD (files : List FileMetaData)
    (hsort : List.Pairwise (fun f g => ikLe f.largest_key g.largest_key) files)
    (i j : Nat) (hij : i < j) (hj : j < files.length) :
    ikLe (files.getD i defaultFile).largest_key (files.getD j defaultFile).largest_key := by
  have hi : i < files.length := lt_trans hij hj
  rw [List.getD_eq_getElem files defaultFile hi, List.getD_eq_getElem files defaultFile hj]
  exact List.pairwise_iff_getElem.mp hsort i j hi hj hij

theorem findFileLoop_eq (files : List FileMetaData) (key : InternalKey) (l r : Nat) :
    findFileLoop files key l r =
      if l < r then
        (if ikGt key ((files.getD ((l + r) / 2) defaultFile).largest_key) then
          findFileLoop files key ((l + r) / 2 + 1) r
        else findFileLoop files key l ((l + r) / 2))
      else r := by
  rw [findFileLoop.eq_def]
  by_cases h : l < r <;> simp [h]

theorem findFileLoop_spec (files : List FileMetaData) (key : InternalKey)
    (hsort : List.Pairwise (fun f g => ikLe f.largest_key g.largest_key) files) :
    ∀ (n l r : Nat), r - l = n → l ≤ r → r ≤ files.length →
      (∀ j, j < l →
        InternalKey.cmp key (files.getD j defaultFile).largest_key = Ordering.gt) →
      (∀ j, r ≤ j → j < files.length →
        InternalKey.cmp key (files.getD j defaultFile).largest_key ≠ Ordering.gt) →
      (l ≤ findFileLoop files key l r ∧ findFileLoop files key l r ≤ r ∧
       (∀ j, j < findFileLoop files key l r →
         InternalKey.cmp key (files.getD j defaultFile).largest_key = Ordering.gt) ∧
       (∀ j, findFileLoop files key l r ≤ j → j < files.length →
         InternalKey.cmp key (files.getD j defaultFile).largest_key ≠ Ordering.gt)) := by
  intro n
  induction n using Nat.strong_induction_on with
  | _ n ih =>
    intro l r hn hlr hrlen hlow hhigh
    rw [findFileLoop_eq]
    by_cases hcond : l < r
    · rw [if_pos hcond]
      by_cases hgt : ikGt key ((files.getD ((l + r) / 2) defaultFile).largest_key)
      · rw [if_pos hgt]
        have hgt' : InternalKey.cmp key
            ((files.getD ((l + r) / 2) defaultFile).largest_key) = Ordering.gt := by
          simpa [ikGt] using hgt
        have hlow' : ∀ j, j < (l + r) / 2 + 1 →
            InternalKey.cmp key (files.getD j defaultFile).largest_key = Ordering.gt := by
          intro j hj
          by_cases hjl : j < l
          · exact hlow j hjl
          · have hj2 : j ≤ (l + r) / 2 := by omega
            rcases eq_or_lt_of_le hj2 with heq | hlt
            · rw [heq]
              exact hgt'
            · have hle : ikLe (files.getD j defaultFile).largest_key
                  ((files.getD ((l + r) / 2) defaultFile).largest_key) :=
                pairwise_ikLe_getD files hsort j ((l + r) / 2) hlt (by omega)
              by_contra hne
              exact cmp_le_trans key (files.getD j defaultFile).largest_key
                ((files.getD ((l + r) / 2) defaultFile).largest_key) hne hle hgt'
        obtain ⟨ha, hb, hc', hd⟩ := ih (r - ((l + r) / 2 + 1)) (by omega)
          ((l + r) / 2 + 1) r rfl (by omega) hrlen hlow' hhigh
        exact ⟨by omega, hb, hc', hd⟩
      · rw [if_neg hgt]
        have hle' : InternalKey.cmp key
            ((files.getD ((l + r) / 2) defaultFile).largest_key) ≠ Ordering.gt := by
          simpa [ikGt] using hgt
        have hhigh' : ∀ j, (l + r) / 2 ≤ j → j < files.length →
            InternalKey.cmp key (files.getD j defaultFile).largest_key ≠ Ordering.gt := by
          intro j hj hjlen
          rcases eq_or_lt_of_le hj with heq | hlt
          · rw [← heq]
            exact hle'
          · have hle2 : ikLe ((files.getD ((l + r) / 2) defaultFile).largest_key)
                ((files.getD j defaultFile).largest_key) :=
              pairwise_ikLe_getD files hsort ((l + r) / 2) j hlt hjlen
            exact cmp_le_trans key _ _ hle' hle2
        obtain ⟨ha, hb, hc', hd⟩ := ih ((l + r) / 2 - l) (by omega) l ((l + r) / 2)
          rfl (by omega) (by omega) hlow hhigh'
        exact ⟨ha, by omega, hc', hd⟩
    · rw [if_neg hcond]
      exact ⟨by omega, le_refl r, fun j hj => hlow j (by omega), hhigh⟩

/-- C9: `find_file` on a list of files sorted ascending by `largest_key` (the
layout of every level ≥ 1) returns the smallest index `i` with
`key ≤ files[i].largest_key` — every index before the result satisfies
`key > largest_key` and the result, when within range, satisfies
`key ≤ largest_key` — and therefore returns the list's length exactly when
no such index exists. -/
theorem c9_find_file (files : List FileMetaData) (key : InternalKey)
    (hsort : List.Pairwise (fun f g => ikLe f.largest_key g.largest_key) files) :
    find_file files key ≤ files.length ∧
    (∀ j, j < find_file files key →
      InternalKey.cmp key (files.getD j defaultFile).largest_key = Ordering.gt) ∧
    (find_file files key < files.length →
      InternalKey.cmp key (files.getD (find_file files key) defaultFile).largest_key ≠
        Ordering.gt) := by
  have h := findFileLoop_spec files key hsort files.length 0 files.length
    (Nat.sub_zero files.length) (Nat.zero_le _) (le_refl _)
    (fun j hj => absurd hj (Nat.not_lt_zero j))
    (fun j hj hjlen => absurd hjlen (not_lt.mpr hj))
  obtain ⟨_, h2, h3, h4⟩ := h
  exact ⟨h2, h3, fun hlt => h4 _ (le_refl _) hlt⟩

theorem c9_witness :
    find_file
        [{ num := 1, size := 0, refs := 0, smallest_key := defaultIK,
           largest_key := { sequence_num := 0, user_key := "b",
                            command := LsmCommand.Set } }]
        { sequence_num := 9, user_key := "a", command := LsmCommand.Seek } ≤ 1 ∧
    (∀ j, j <
        find_file
          [{ num := 1, size := 0, refs := 0, smallest_key := defaultIK,
             largest_key := { sequence_num := 0, user_key := "b",
                              command := LsmCommand.Set } }]
          { sequence_num := 9, user_key := "a", command := LsmCommand.Seek } →
      InternalKey.cmp { sequence_num := 9, user_key := "a", command := LsmCommand.Seek }
        (([{ num := 1, size := 0, refs := 0, smallest_key := defaultIK,
             largest_key := { sequence_num := 0, user_key := "b",
                              command := LsmCommand.Set } }].getD j
          defaultFile)).largest_key = Ordering.gt) ∧
    (find_file
        [{ num := 1, size := 0, refs := 0, smallest_key := defaultIK,
           largest_key := { sequence_num := 0, user_key := "b",
                            command := LsmCommand.Set } }]
        { sequence_num := 9, user_key := "a", command := LsmCommand.Seek } < 1 →
      InternalKey.cmp { sequence_num := 9, user_key := "a", command := LsmCommand.Seek }
        (([{ num := 1, size := 0, refs := 0, smallest_key := defaultIK,
             largest_key := { sequence_num := 0, user_key := "b",
                              command := LsmCommand.Set } }].getD
          (find_file
            [{ num := 1, size := 0, refs := 0, smallest_key := defaultIK,
               largest_key := { sequence_num := 0, user_key := "b",
                                command := LsmCommand.Set } }]
            { sequence_num := 9, user_key := "a", command := LsmCommand.Seek })
          defaultFile)).largest_key ≠ Ordering.gt) :=
  c9_find_file _ _ (by simp)

end KvRs
